import Mathlib

/-!
Verification of the circle-packing placement engine of `pack_circles.py`.

The embedding models the source faithfully:
* `Circle` / `overlaps_other` / `is_inside_mask` embed the `Circle` class;
* `Mask` / `maskcoords` / `update_mask_coordinates` embed the mask state of
  `CircleCloud` (a binary image: `pix x y = true` models pixel value 255);
* `placeLoopF` / `place_circles` embed the `CircleCloud.place_circles` loop,
  with the random draws of `random.randrange` passed in as an explicit
  index stream and the sampled radii as an explicit list;
* `rpool`, `linspace`, `probsNorm`, `sampleRadii` embed the radius sampler;
* `splitext` / `draw_svg` embed the SVG output naming logic.

Python floats are modelled as exact rationals.  Because the `Rat`
arithmetic operations of the core library are irreducible (so concrete
runs could not be evaluated by `decide`), the rational additions and
multiplications of the source are written through the computable wrappers
`qAdd`, `qSub`, `qMul`, each proved equal to the mathematical operation.
-/

namespace PackCircles

/-- Computable rational addition, proved equal to `+` in `qAdd_eq`. -/
def qAdd (a b : ℚ) : ℚ := mkRat (a.num * (b.den : ℤ) + b.num * (a.den : ℤ)) (a.den * b.den)

/-- Computable rational subtraction, proved equal to `-` in `qSub_eq`. -/
def qSub (a b : ℚ) : ℚ := mkRat (a.num * (b.den : ℤ) - b.num * (a.den : ℤ)) (a.den * b.den)

/-- Computable rational multiplication, proved equal to `*` in `qMul_eq`. -/
def qMul (a b : ℚ) : ℚ := mkRat (a.num * b.num) (a.den * b.den)

theorem qAdd_eq (a b : ℚ) : qAdd a b = a + b := (Rat.add_def' a b).symm

theorem qSub_eq (a b : ℚ) : qSub a b = a - b := (Rat.sub_def' a b).symm

theorem qMul_eq (a b : ℚ) : qMul a b = a * b := by
  rw [qMul, Rat.mul_def, Rat.normalize_eq_mkRat]

/-- Models Python `int()` on a rational value: truncation toward zero. -/
def pyInt (q : ℚ) : ℤ := q.num.tdiv q.den

/-- Decides `Real.sqrt n < q` (see `sqrtLtQ_iff`) using only integer
arithmetic, modelling the comparison `np.sqrt(d2) < q` of the source. -/
def sqrtLtQ (n : ℤ) (q : ℚ) : Bool :=
  decide (0 < q.num) && decide (n * (q.den : ℤ) ^ 2 < q.num ^ 2)

/-- Embeds the `Circle` class: integer center and radius (the constructor
applies `int()` to both), rational extra clearance `offset`. -/
structure Circle where
  x : ℤ
  y : ℤ
  radius : ℤ
  offset : ℚ
deriving Repr

/-- Embeds `Circle.__init__`: `x = int(center[0])`, `y = int(center[1])`,
`radius = int(r)`; the center comes from the integer coordinate pool, so
`int()` on it is the numeric cast. -/
def mkCircle (center : ℕ × ℕ) (r : ℚ) (offset : ℚ) : Circle :=
  { x := center.1, y := center.2, radius := pyInt r, offset := offset }

/-- Embeds `Circle.overlaps_other`:
`sqrt((x1-x2)^2 + (y1-y2)^2) < other.radius + self.radius + self.offset`.
`self` is the first argument (the candidate circle). -/
def Circle.overlaps_other (self other : Circle) : Bool :=
  sqrtLtQ ((self.x - other.x) ^ 2 + (self.y - other.y) ^ 2)
    (qAdd (((other.radius + self.radius : ℤ) : ℚ)) self.offset)

/-- A binary mask image: `pix x y = true` models a white (255, allowed)
pixel inside the `width × height` grid. -/
structure Mask where
  width : ℕ
  height : ℕ
  pix : ℕ → ℕ → Bool

/-- Models the filled-circle rasterization of `cv2.circle(..., -1, 8, 0)`:
the pixel `(px, py)` belongs to the disk of `c`. -/
def inDisk (c : Circle) (px py : ℕ) : Bool :=
  decide (((px : ℤ) - c.x) ^ 2 + ((py : ℤ) - c.y) ^ 2 ≤ c.radius ^ 2)

/-- Sum of a pixel-valued function over the `w × h` grid, modelling
`np.sum` over an image array. -/
def gridSum (w h : ℕ) (f : ℕ → ℕ → ℕ) : ℕ :=
  ((List.range w).map (fun px => ((List.range h).map (f px)).sum)).sum

/-- Embeds `Circle.is_inside_mask`: rasterize the circle into a scratch
mask (value 255 on the disk), AND it with the mask image (on binary
images `&` is the pointwise minimum), and compare the two pixel sums. -/
def Circle.is_inside_mask (c : Circle) (m : Mask) : Bool :=
  gridSum m.width m.height (fun px py => if inDisk c px py then 255 else 0)
    == gridSum m.width m.height
        (fun px py => if m.pix px py && inDisk c px py then 255 else 0)

/-- Embeds the allowed-coordinate pool
`np.where(maskimg == 255)` zipped as `(x, y)` pairs (row-major order). -/
def maskcoords (m : Mask) : List (ℕ × ℕ) :=
  (List.range m.height).flatMap
    (fun y => ((List.range m.width).filter (fun x => m.pix x y)).map (fun x => (x, y)))

/-- Embeds `CircleCloud.update_mask_coordinates`: burn every placed circle
into the mask as white (255) pixels (`cv2.circle` clips to the image
bounds) and re-derive the coordinate pool from the result. -/
def update_mask_coordinates (m : Mask) (circles : List Circle) : Mask :=
  { width := m.width
    height := m.height
    pix := fun px py =>
      m.pix px py ||
        (decide (px < m.width) && decide (py < m.height) &&
          circles.any (fun c => inDisk c px py)) }

/-- Embeds the mask construction of `CircleCloud.__init__`:
`cv2.threshold(gray, 128, 255, THRESH_BINARY | THRESH_OTSU)` followed by
an optional `cv2.bitwise_not`.  The Otsu-selected threshold is passed in
as `thr` (white iff the gray value exceeds it). -/
def binarize (gray : ℕ → ℕ → ℕ) (w h : ℕ) (thr : ℕ) (invert : Bool) : Mask :=
  { width := w
    height := h
    pix := fun px py =>
      if invert then !(decide (thr < gray px py)) else decide (thr < gray px py) }

theorem sqrtLtQ_iff (n : ℤ) (q : ℚ) :
    sqrtLtQ n q = true ↔ Real.sqrt (n : ℝ) < (q : ℝ) := by
  rw [sqrtLtQ, Bool.and_eq_true, decide_eq_true_eq, decide_eq_true_eq]
  constructor
  · rintro ⟨hq, hlt⟩
    have hqpos : (0 : ℚ) < q := Rat.num_pos.mp hq
    have hqR : (0 : ℝ) < (q : ℝ) := by exact_mod_cast hqpos
    rw [Real.sqrt_lt' hqR]
    have hden : (0 : ℝ) < ((q.den : ℝ)) ^ 2 := by
      have h0 : (0 : ℝ) < (q.den : ℝ) := by exact_mod_cast q.den_pos
      positivity
    rw [show ((q : ℝ)) = ((q.num : ℝ)) / ((q.den : ℝ)) by exact_mod_cast (Rat.num_div_den q).symm]
    rw [div_pow, lt_div_iff₀ hden]
    calc (n : ℝ) * ((q.den : ℝ)) ^ 2 = ((n * (q.den : ℤ) ^ 2 : ℤ) : ℝ) := by push_cast; ring
    _ < (((q.num : ℤ) ^ 2 : ℤ) : ℝ) := by exact_mod_cast hlt
    _ = ((q.num : ℝ)) ^ 2 := by push_cast; ring
  · intro h
    have hq0 : (0 : ℝ) < (q : ℝ) := lt_of_le_of_lt (Real.sqrt_nonneg _) h
    have hqpos : (0 : ℚ) < q := by exact_mod_cast hq0
    refine ⟨Rat.num_pos.mpr hqpos, ?_⟩
    rw [Real.sqrt_lt' hq0] at h
    have hden : (0 : ℝ) < ((q.den : ℝ)) ^ 2 := by
      have h0 : (0 : ℝ) < (q.den : ℝ) := by exact_mod_cast q.den_pos
      positivity
    rw [show ((q : ℝ)) = ((q.num : ℝ)) / ((q.den : ℝ)) by exact_mod_cast (Rat.num_div_den q).symm,
      div_pow, lt_div_iff₀ hden] at h
    have : ((n * (q.den : ℤ) ^ 2 : ℤ) : ℝ) < (((q.num : ℤ) ^ 2 : ℤ) : ℝ) := by push_cast at h ⊢; linarith
    exact_mod_cast this

theorem sqrtLtQ_false (n : ℤ) (q : ℚ) (h : sqrtLtQ n q = false) :
    (q : ℝ) ≤ Real.sqrt (n : ℝ) := by
  by_contra hcon
  push_neg at hcon
  have := (sqrtLtQ_iff n q).mpr hcon
  rw [h] at this
  cases this

theorem sum_map_eq_iff {α : Type} (l : List α) (f g : α → ℕ)
    (hle : ∀ x ∈ l, g x ≤ f x) :
    (l.map f).sum = (l.map g).sum ↔ ∀ x ∈ l, f x = g x := by
  induction l with
  | nil => simp
  | cons a l ih =>
    rw [List.forall_mem_cons] at hle
    rw [List.map_cons, List.map_cons, List.sum_cons, List.sum_cons, List.forall_mem_cons]
    have h2 : (l.map g).sum ≤ (l.map f).sum :=
      List.sum_le_sum (fun x hx => hle.2 x hx)
    have ih' := ih hle.2
    constructor
    · intro h
      have h1 : f a = g a := by omega
      have h3 : (l.map f).sum = (l.map g).sum := by omega
      exact ⟨h1, ih'.mp h3⟩
    · rintro ⟨h1, h3⟩
      rw [h1, ih'.mpr h3]

theorem is_inside_mask_iff (c : Circle) (m : Mask) :
    c.is_inside_mask m = true ↔
      ∀ px py, px < m.width → py < m.height → inDisk c px py = true →
        m.pix px py = true := by
  have hcell : ∀ px py,
      (if m.pix px py && inDisk c px py then 255 else 0) ≤
        (if inDisk c px py then (255 : ℕ) else 0) := by
    intro px py
    cases hd : inDisk c px py <;> cases hp : m.pix px py <;> simp
  have hinner : ∀ px, px ∈ List.range m.width →
      ((List.range m.height).map
        (fun py => if m.pix px py && inDisk c px py then 255 else 0)).sum ≤
      ((List.range m.height).map
        (fun py => if inDisk c px py then (255 : ℕ) else 0)).sum :=
    fun px _ => List.sum_le_sum (fun py _ => hcell px py)
  rw [Circle.is_inside_mask, beq_iff_eq, gridSum, gridSum, sum_map_eq_iff _ _ _ hinner]
  constructor
  · intro h px py hx hy hd
    have h2 := (sum_map_eq_iff _ _ _ (fun py _ => hcell px py)).mp
      (h px (List.mem_range.mpr hx)) py (List.mem_range.mpr hy)
    rw [hd] at h2
    cases hp : m.pix px py
    · rw [hp] at h2; simp at h2
    · rfl
  · intro h px hpx
    rw [sum_map_eq_iff _ _ _ (fun py _ => hcell px py)]
    intro py hpy
    cases hd : inDisk c px py
    · simp
    · rw [h px py (List.mem_range.mp hpx) (List.mem_range.mp hpy) hd]
      simp

theorem mem_maskcoords (m : Mask) (p : ℕ × ℕ) :
    p ∈ maskcoords m ↔
      p.1 < m.width ∧ p.2 < m.height ∧ m.pix p.1 p.2 = true := by
  obtain ⟨px, py⟩ := p
  rw [maskcoords, List.mem_flatMap]
  constructor
  · rintro ⟨y, hy, hmem⟩
    rw [List.mem_map] at hmem
    obtain ⟨x, hx, heq⟩ := hmem
    rw [List.mem_filter, List.mem_range] at hx
    obtain ⟨rfl, rfl⟩ := Prod.mk.injEq .. ▸ heq
    exact ⟨hx.1, List.mem_range.mp hy, hx.2⟩
  · rintro ⟨hx, hy, hpix⟩
    exact ⟨py, List.mem_range.mpr hy,
      List.mem_map.mpr ⟨px, List.mem_filter.mpr ⟨List.mem_range.mpr hx, hpix⟩, rfl⟩⟩

theorem mask_ext (m1 m2 : Mask) (hw : m1.width = m2.width)
    (hh : m1.height = m2.height)
    (hp : ∀ px py, m1.pix px py = m2.pix px py) : m1 = m2 := by
  cases m1 with
  | mk w1 h1 p1 =>
    cases m2 with
    | mk w2 h2 p2 =>
      dsimp at hw hh hp
      subst hw
      subst hh
      have : p1 = p2 := funext (fun px => funext (fun py => hp px py))
      rw [this]

/-- When every circle of the list already lies inside the mask, burning the
circles into the mask changes nothing: all their pixels are already white. -/
theorem update_mask_noop (m : Mask) (cs : List Circle)
    (h : ∀ c ∈ cs, c.is_inside_mask m = true) :
    update_mask_coordinates m cs = m := by
  refine mask_ext _ _ rfl rfl ?_
  intro px py
  show (m.pix px py ||
    (decide (px < m.width) && decide (py < m.height) &&
      cs.any (fun c => inDisk c px py))) = m.pix px py
  cases hp : m.pix px py
  · cases hX : (decide (px < m.width) && decide (py < m.height) &&
        cs.any (fun c => inDisk c px py))
    · simp
    · exfalso
      rw [Bool.and_eq_true, Bool.and_eq_true, List.any_eq_true] at hX
      obtain ⟨⟨hx, hy⟩, c, hc, hd⟩ := hX
      have := (is_inside_mask_iff c m).mp (h c hc) px py
        (of_decide_eq_true hx) (of_decide_eq_true hy) hd
      rw [hp] at this
      cases this
  · simp

theorem update_mem_superset (m : Mask) (cs : List Circle) (p : ℕ × ℕ)
    (hp : p ∈ maskcoords m) :
    p ∈ maskcoords (update_mask_coordinates m cs) := by
  rw [mem_maskcoords] at hp ⊢
  refine ⟨hp.1, hp.2.1, ?_⟩
  show (m.pix p.1 p.2 || _) = true
  rw [hp.2.2, Bool.true_or]

theorem update_coords_ne (m : Mask) (cs : List Circle)
    (h : maskcoords m ≠ []) :
    maskcoords (update_mask_coordinates m cs) ≠ [] := by
  obtain ⟨p, hp⟩ := List.exists_mem_of_ne_nil _ h
  intro hnil
  have hmem := update_mem_superset m cs p hp
  rw [hnil] at hmem
  exact absurd hmem (List.not_mem_nil p)

/-- Embeds numpy `linspace(a, b, m)`: `m` evenly spaced points from `a`
to `b` inclusive. -/
def linspace (a b : ℚ) (m : ℕ) : List ℚ :=
  if m = 0 then []
  else if m = 1 then [a]
  else (List.range m).map (fun (i : ℕ) => a + (b - a) * (i : ℚ) / ((m : ℚ) - 1))

/-- Embeds `nradii = int((r_max - r_min) * 10)`. -/
def nradii (r_min r_max : ℚ) : ℤ := pyInt (qMul (qSub r_max r_min) 10)

/-- Embeds the radius pool: `nradii` draws of `random.uniform(r_min, r_max)`
(passed in as the stream `draws`), sorted ascending
(`rpool.sort(reverse=False)`; `insertionSort` produces the same list as any
comparison sort on a linear order). -/
def rpool (r_min r_max : ℚ) (draws : ℕ → ℚ) : List ℚ :=
  List.insertionSort (· ≤ ·) ((List.range (nradii r_min r_max).toNat).map draws)

/-- Embeds `p = -20 * x` for `x = linspace(r_min, r_max, len(rpool))`. -/
def weightsRaw (r_min r_max : ℚ) (m : ℕ) : List ℚ :=
  (linspace r_min r_max m).map (fun x => -20 * x)

/-- Models Python `min()` on a list; `none` models the `ValueError` raised
on an empty sequence. -/
def listMin : List ℚ → Option ℚ
  | [] => none
  | x :: xs =>
    match listMin xs with
    | none => some x
    | some v => some (min x v)

/-- Embeds `p = p + abs(min(p)) + 5; p = p / np.sum(p)` applied to the raw
weights. -/
def probsNorm (r_min r_max : ℚ) (m : ℕ) : Option (List ℚ) :=
  match listMin (weightsRaw r_min r_max m) with
  | none => none
  | some mn =>
    let p := (weightsRaw r_min r_max m).map (fun q => q + |mn| + 5)
    some (p.map (fun q => q / p.sum))

/-- Embeds the radius-sampling phase of `place_circles` (lines 137-149):
build the pool, compute the skewed probabilities, draw `n` radii with
replacement (`np.random.choice`, whose random index draws are modelled by
the stream `cpicks`), and return them sorted in descending order
(`radii_tmp.sort()` followed by the reversal `[::-1]`).  `.error ()`
models the `ValueError` raised by `min()` on an empty weight sequence. -/
def sampleRadii (r_min r_max : ℚ) (n : ℕ) (draws : ℕ → ℚ) (cpicks : ℕ → ℕ) :
    Except Unit (List ℚ) :=
  let pool := rpool r_min r_max draws
  match probsNorm r_min r_max pool.length with
  | none => .error ()
  | some _ =>
    let samples := (List.range n).map (fun t => pool.getD (cpicks t % pool.length) 0)
    .ok ((List.insertionSort (· ≤ ·) samples).reverse)

/-- The configuration of a placement run: requested circle count `n`,
`max_attempts`, the mask-update toggle, the extra clearance `offset`, the
sampled radii (descending, as produced by `sampleRadii`), and the stream
of `random.randrange` draws used to pick candidate centers (`picks t` is
reduced modulo the pool length, since `randrange(0, len)` only produces
indices below `len`). -/
structure Env where
  n : ℕ
  max_attempts : ℕ
  maskupdate : Bool
  offset : ℚ
  radii : List ℚ
  picks : ℕ → ℕ

/-- Result of a placement run: `ok circles mask cdone attempts` on normal
completion, `err attempts` when `random.randrange` raises `ValueError`
because the coordinate pool is empty. -/
inductive PlaceResult where
  | ok (circles : List Circle) (mask : Mask) (cdone attempts : ℕ)
  | err (attempts : ℕ)

def attemptsOf : PlaceResult → ℕ
  | .ok _ _ _ t => t
  | .err t => t

/-- Embeds lines 162-166 of `place_circles`: on the first attempt (`a == 0`)
of every 100th slot other than the 0th, if the mask-update toggle is on,
re-derive the mask and coordinate pool. -/
def stepMask (env : Env) (mask : Mask) (circles : List Circle) (c a : ℕ) : Mask :=
  if a = 0 ∧ c % 100 = 0 ∧ 0 < c ∧ env.maskupdate = true then
    update_mask_coordinates mask circles
  else mask

/-- Embeds lines 168-171 of `place_circles`: the candidate circle built
from a random coordinate of the pool (`self.maskcoords[randrange(0, len)]`),
the radius of the current slot (`radii[c]`) and the configured offset. -/
def candidateOf (env : Env) (m2 : Mask) (c t : ℕ) : Circle :=
  mkCircle ((maskcoords m2).getD (env.picks t % (maskcoords m2).length) (0, 0))
    (env.radii.getD c 0) env.offset

/-- Embeds the `while c < self.n` loop of `place_circles` (lines 150-193),
with state `(mask, circles, c, a, t)`: `c` counts radius slots handled,
`a` counts attempts for the current slot, `t` counts candidate circles
constructed over the whole run.  Structural recursion on `fuel`;
`placeLoop_total` shows the fuel supplied by `place_circles` always
suffices, so `none` is never returned there. -/
def placeLoopF (env : Env) :
    ℕ → Mask → List Circle → ℕ → ℕ → ℕ → Option PlaceResult
  | 0, _, _, _, _, _ => none
  | fuel + 1, mask, circles, c, a, t =>
    if c < env.n then
      if env.max_attempts < a then
        placeLoopF env fuel mask circles (c + 1) 0 t
      else
        let m2 := stepMask env mask circles c a
        if (maskcoords m2).length = 0 then some (.err t)
        else
          let circle := candidateOf env m2 c t
          if circle.is_inside_mask m2 &&
              circles.all (fun other => !circle.overlaps_other other) then
            placeLoopF env fuel m2 (circles ++ [circle]) (c + 1) 0 (t + 1)
          else
            placeLoopF env fuel m2 circles c (a + 1) (t + 1)
    else some (.ok circles mask c t)

/-- A full placement run from the empty circle collection. -/
def place_circles (env : Env) (m : Mask) : Option PlaceResult :=
  placeLoopF env (env.n * (env.max_attempts + 2) + env.max_attempts + 2) m [] 0 0 0

/-- The loop terminates: with enough fuel, `placeLoopF` returns a value. -/
theorem placeLoop_total (env : Env) :
    ∀ fuel mask circles c a t,
      (env.n - c) * (env.max_attempts + 2) + (env.max_attempts + 1 - a) < fuel →
      (placeLoopF env fuel mask circles c a t).isSome = true := by
  intro fuel
  induction fuel with
  | zero => intro mask circles c a t h; omega
  | succ fuel ih =>
    intro mask circles c a t h
    simp only [placeLoopF]
    by_cases hc : c < env.n
    · rw [if_pos hc]
      have hsplit : env.n - c = (env.n - (c + 1)) + 1 := by omega
      by_cases ha : env.max_attempts < a
      · rw [if_pos ha]
        apply ih
        rw [hsplit, Nat.succ_mul] at h
        omega
      · rw [if_neg ha]
        by_cases hm : (maskcoords (stepMask env mask circles c a)).length = 0
        · rw [if_pos hm]; rfl
        · rw [if_neg hm]
          by_cases hacc : ((candidateOf env (stepMask env mask circles c a) c t).is_inside_mask
              (stepMask env mask circles c a) &&
              circles.all (fun other =>
                !(candidateOf env (stepMask env mask circles c a) c t).overlaps_other other)) = true
          · rw [if_pos hacc]
            apply ih
            rw [hsplit, Nat.succ_mul] at h
            omega
          · rw [if_neg hacc]
            apply ih
            omega
    · rw [if_neg hc]; rfl

/-- The loop never raises the empty-range error when the coordinate pool
is nonempty (mask updates can only add allowed pixels). -/
theorem placeLoop_no_err (env : Env) :
    ∀ fuel mask circles c a t t',
      maskcoords mask ≠ [] →
      placeLoopF env fuel mask circles c a t ≠ some (.err t') := by
  intro fuel
  induction fuel with
  | zero => intro mask circles c a t t' _ h; exact absurd h (by simp [placeLoopF])
  | succ fuel ih =>
    intro mask circles c a t t' hne
    simp only [placeLoopF]
    by_cases hc : c < env.n
    · rw [if_pos hc]
      by_cases ha : env.max_attempts < a
      · rw [if_pos ha]; exact ih _ _ _ _ _ _ hne
      · rw [if_neg ha]
        have hne2 : maskcoords (stepMask env mask circles c a) ≠ [] := by
          rw [stepMask]
          split
          · exact update_coords_ne _ _ hne
          · exact hne
        by_cases hm : (maskcoords (stepMask env mask circles c a)).length = 0
        · exact absurd (List.length_eq_zero.mp hm) hne2
        · rw [if_neg hm]
          by_cases hacc : ((candidateOf env (stepMask env mask circles c a) c t).is_inside_mask
              (stepMask env mask circles c a) &&
              circles.all (fun other =>
                !(candidateOf env (stepMask env mask circles c a) c t).overlaps_other other)) = true
          · rw [if_pos hacc]; exact ih _ _ _ _ _ _ hne2
          · rw [if_neg hacc]; exact ih _ _ _ _ _ _ hne2
    · rw [if_neg hc]; simp

/-- Run invariant: starting from circles that all lie inside the mask and
are pairwise non-overlapping, a completed run returns the *same* mask
(the update pass only burns pixels that are already white), and the final
collection again consists of circles inside the mask that are pairwise
non-overlapping (each later circle reports no overlap with each earlier
one). -/
theorem placeLoop_invariant (env : Env) :
    ∀ fuel mask circles c a t cs m' cf t',
      placeLoopF env fuel mask circles c a t = some (.ok cs m' cf t') →
      (∀ cc ∈ circles, cc.is_inside_mask mask = true) →
      circles.Pairwise (fun e l => l.overlaps_other e = false) →
      m' = mask ∧ (∀ cc ∈ cs, cc.is_inside_mask mask = true) ∧
        cs.Pairwise (fun e l => l.overlaps_other e = false) := by
  intro fuel
  induction fuel with
  | zero =>
    intro mask circles c a t cs m' cf t' hrun _ _
    exact absurd hrun (by simp [placeLoopF])
  | succ fuel ih =>
    intro mask circles c a t cs m' cf t' hrun hin hpw
    simp only [placeLoopF] at hrun
    by_cases hc : c < env.n
    · rw [if_pos hc] at hrun
      by_cases ha : env.max_attempts < a
      · rw [if_pos ha] at hrun
        exact ih _ _ _ _ _ _ _ _ _ hrun hin hpw
      · rw [if_neg ha] at hrun
        have hstep : stepMask env mask circles c a = mask := by
          rw [stepMask]
          split
          · exact update_mask_noop mask circles hin
          · rfl
        rw [hstep] at hrun
        by_cases hm : (maskcoords mask).length = 0
        · rw [if_pos hm] at hrun
          exact absurd hrun (by simp)
        · rw [if_neg hm] at hrun
          by_cases hacc : ((candidateOf env mask c t).is_inside_mask mask &&
              circles.all (fun other =>
                !(candidateOf env mask c t).overlaps_other other)) = true
          · rw [if_pos hacc] at hrun
            rw [Bool.and_eq_true] at hacc
            have hin' : ∀ cc ∈ circles ++ [candidateOf env mask c t],
                cc.is_inside_mask mask = true := by
              intro cc hcc
              rcases List.mem_append.mp hcc with hmem | hmem
              · exact hin cc hmem
              · rw [List.mem_singleton.mp hmem]; exact hacc.1
            have hpw' : (circles ++ [candidateOf env mask c t]).Pairwise
                (fun e l => l.overlaps_other e = false) := by
              rw [List.pairwise_append]
              refine ⟨hpw, List.pairwise_singleton _ _, ?_⟩
              intro x hx b hb
              rw [List.mem_singleton.mp hb]
              have hall := List.all_eq_true.mp hacc.2 x hx
              simpa using hall
            exact ih _ _ _ _ _ _ _ _ _ hrun hin' hpw'
          · rw [if_neg hacc] at hrun
            exact ih _ _ _ _ _ _ _ _ _ hrun hin hpw
    · rw [if_neg hc] at hrun
      simp only [Option.some.injEq, PlaceResult.ok.injEq] at hrun
      obtain ⟨h1, h2, _, _⟩ := hrun
      subst h1
      subst h2
      exact ⟨rfl, hin, hpw⟩

/-- On normal completion the loop has handled exactly all `n` slots. -/
theorem placeLoop_cdone (env : Env) :
    ∀ fuel mask circles c a t cs m' cf t',
      c ≤ env.n →
      placeLoopF env fuel mask circles c a t = some (.ok cs m' cf t') →
      cf = env.n := by
  intro fuel
  induction fuel with
  | zero =>
    intro mask circles c a t cs m' cf t' _ hrun
    exact absurd hrun (by simp [placeLoopF])
  | succ fuel ih =>
    intro mask circles c a t cs m' cf t' hcn hrun
    simp only [placeLoopF] at hrun
    by_cases hc : c < env.n
    · rw [if_pos hc] at hrun
      by_cases ha : env.max_attempts < a
      · rw [if_pos ha] at hrun
        exact ih _ _ _ _ _ _ _ _ _ (by omega) hrun
      · rw [if_neg ha] at hrun
        by_cases hm : (maskcoords (stepMask env mask circles c a)).length = 0
        · rw [if_pos hm] at hrun
          exact absurd hrun (by simp)
        · rw [if_neg hm] at hrun
          by_cases hacc : ((candidateOf env (stepMask env mask circles c a) c t).is_inside_mask
              (stepMask env mask circles c a) &&
              circles.all (fun other =>
                !(candidateOf env (stepMask env mask circles c a) c t).overlaps_other other)) = true
          · rw [if_pos hacc] at hrun
            exact ih _ _ _ _ _ _ _ _ _ (by omega) hrun
          · rw [if_neg hacc] at hrun
            exact ih _ _ _ _ _ _ _ _ _ (by omega) hrun
    · rw [if_neg hc] at hrun
      simp only [Option.some.injEq, PlaceResult.ok.injEq] at hrun
      omega

/-- Bound on the total number of candidate circles constructed: each of
the remaining slots accounts for at most `max_attempts + 1` attempts. -/
theorem placeLoop_attempts (env : Env) :
    ∀ fuel mask circles c a t res,
      placeLoopF env fuel mask circles c a t = some res →
      a ≤ env.max_attempts + 1 →
      (c < env.n →
        attemptsOf res + a ≤ t + (env.n - c) * (env.max_attempts + 1)) ∧
      (env.n ≤ c → attemptsOf res = t) := by
  intro fuel
  induction fuel with
  | zero =>
    intro mask circles c a t res hrun _
    exact absurd hrun (by simp [placeLoopF])
  | succ fuel ih =>
    intro mask circles c a t res hrun ha1
    simp only [placeLoopF] at hrun
    by_cases hc : c < env.n
    · rw [if_pos hc] at hrun
      have hsplit : (env.n - c) * (env.max_attempts + 1) =
          (env.n - (c + 1)) * (env.max_attempts + 1) + (env.max_attempts + 1) := by
        have h1 : env.n - c = (env.n - (c + 1)) + 1 := by omega
        rw [h1, Nat.succ_mul]
      refine ⟨fun _ => ?_, fun hnc => absurd hnc (by omega)⟩
      by_cases ha : env.max_attempts < a
      · rw [if_pos ha] at hrun
        have ihres := ih _ _ _ _ _ _ hrun (by omega)
        by_cases hc1 : c + 1 < env.n
        · have := ihres.1 hc1
          omega
        · have := ihres.2 (by omega)
          omega
      · rw [if_neg ha] at hrun
        by_cases hm : (maskcoords (stepMask env mask circles c a)).length = 0
        · rw [if_pos hm] at hrun
          simp only [Option.some.injEq] at hrun
          subst hrun
          simp only [attemptsOf]
          omega
        · rw [if_neg hm] at hrun
          by_cases hacc : ((candidateOf env (stepMask env mask circles c a) c t).is_inside_mask
              (stepMask env mask circles c a) &&
              circles.all (fun other =>
                !(candidateOf env (stepMask env mask circles c a) c t).overlaps_other other)) = true
          · rw [if_pos hacc] at hrun
            have ihres := ih _ _ _ _ _ _ hrun (by omega)
            by_cases hc1 : c + 1 < env.n
            · have := ihres.1 hc1
              omega
            · have := ihres.2 (by omega)
              omega
          · rw [if_neg hacc] at hrun
            have ihres := ih _ _ _ _ _ _ hrun (by omega)
            have := ihres.1 hc
            omega
    · rw [if_neg hc] at hrun
      simp only [Option.some.injEq] at hrun
      subst hrun
      exact ⟨fun hcc => absurd hcc hc, fun _ => rfl⟩

/-- Radius provenance: every circle of a completed run either was already
present initially or has a radius equal to `int()` of one of the sampled
radii (and an in-range slot index). -/
theorem placeLoop_radii (env : Env) :
    ∀ fuel mask circles c a t cs m' cf t',
      placeLoopF env fuel mask circles c a t = some (.ok cs m' cf t') →
      ∀ cc ∈ cs, cc ∈ circles ∨
        ∃ i, i < env.n ∧ cc.radius = pyInt (env.radii.getD i 0) := by
  intro fuel
  induction fuel with
  | zero =>
    intro mask circles c a t cs m' cf t' hrun
    exact absurd hrun (by simp [placeLoopF])
  | succ fuel ih =>
    intro mask circles c a t cs m' cf t' hrun cc hcc
    simp only [placeLoopF] at hrun
    by_cases hc : c < env.n
    · rw [if_pos hc] at hrun
      by_cases ha : env.max_attempts < a
      · rw [if_pos ha] at hrun
        exact ih _ _ _ _ _ _ _ _ _ hrun cc hcc
      · rw [if_neg ha] at hrun
        by_cases hm : (maskcoords (stepMask env mask circles c a)).length = 0
        · rw [if_pos hm] at hrun
          exact absurd hrun (by simp)
        · rw [if_neg hm] at hrun
          by_cases hacc : ((candidateOf env (stepMask env mask circles c a) c t).is_inside_mask
              (stepMask env mask circles c a) &&
              circles.all (fun other =>
                !(candidateOf env (stepMask env mask circles c a) c t).overlaps_other other)) = true
          · rw [if_pos hacc] at hrun
            rcases ih _ _ _ _ _ _ _ _ _ hrun cc hcc with hmem | hex
            · rcases List.mem_append.mp hmem with hmem2 | hmem2
              · exact Or.inl hmem2
              · refine Or.inr ⟨c, hc, ?_⟩
                rw [List.mem_singleton.mp hmem2]
                rfl
            · exact Or.inr hex
          · rw [if_neg hacc] at hrun
            exact ih _ _ _ _ _ _ _ _ _ hrun cc hcc
    · rw [if_neg hc] at hrun
      simp only [Option.some.injEq, PlaceResult.ok.injEq] at hrun
      obtain ⟨h1, _, _, _⟩ := hrun
      subst h1
      exact Or.inl hcc

/-- Models Python `str.rfind`: index of the last occurrence of `ch` in
`p`, or `-1` when absent. -/
def rfindIdx : List Char → Char → ℤ
  | [], _ => -1
  | c :: rest, ch =>
    let r := rfindIdx rest ch
    if 0 ≤ r then r + 1
    else if c == ch then 0 else -1

/-- The literal `".svg"`. -/
def svgChars : List Char := ['.', 's', 'v', 'g']

/-- Embeds `os.path.splitext` (posixpath `_splitext`): split at the last
dot, provided it comes after the last path separator and at least one
character of the basename before it is not a dot (leading dots of the
basename do not start an extension). -/
def splitext (p : List Char) : List Char × List Char :=
  let si := rfindIdx p '/'
  let di := rfindIdx p '.'
  if si < di ∧ ((List.range' (si + 1).toNat (di - (si + 1)).toNat).any
      (fun k => !(p.getD k '.' == '.'))) = true then
    (p.take di.toNat, p.drop di.toNat)
  else (p, [])

theorem rfindIdx_ge (p : List Char) (ch : Char) : -1 ≤ rfindIdx p ch := by
  induction p with
  | nil => exact le_refl _
  | cons c rest ih =>
    simp only [rfindIdx]
    split
    · omega
    · split <;> omega

theorem rfindIdx_getElem (p : List Char) (ch : Char) (h : 0 ≤ rfindIdx p ch) :
    p[(rfindIdx p ch).toNat]? = some ch := by
  induction p with
  | nil => simp [rfindIdx] at h
  | cons c rest ih =>
    simp only [rfindIdx] at h ⊢
    by_cases hr : 0 ≤ rfindIdx rest ch
    · rw [if_pos hr] at h ⊢
      have htn : (rfindIdx rest ch + 1).toNat = (rfindIdx rest ch).toNat + 1 := by omega
      rw [htn]
      simpa using ih hr
    · rw [if_neg hr] at h ⊢
      by_cases hc : (c == ch) = true
      · rw [if_pos hc] at h ⊢
        have hceq : c = ch := eq_of_beq hc
        simp [hceq]
      · rw [if_neg hc] at h
        exact absurd h (by norm_num)

theorem rfindIdx_le (p : List Char) (ch : Char) (j : ℕ) (h : p[j]? = some ch) :
    (j : ℤ) ≤ rfindIdx p ch := by
  induction p generalizing j with
  | nil => simp at h
  | cons c rest ih =>
    simp only [rfindIdx]
    cases j with
    | zero =>
      rw [List.getElem?_cons_zero] at h
      have hc : c = ch := by injection h
      split
      · omega
      · subst hc
        rw [if_pos (by simp)]
        simp
    | succ j' =>
      rw [List.getElem?_cons_succ] at h
      have hle := ih j' h
      split
      · push_cast
        omega
      · omega

theorem splitext_snd_cases (p : List Char) :
    (splitext p).2 = [] ∨
      ((splitext p).2.head? = some '.' ∧
        ∀ ch ∈ (splitext p).2.tail, ch ≠ '.') := by
  simp only [splitext]
  split
  next h =>
    right
    obtain ⟨hlt, _⟩ := h
    have hge : -1 ≤ rfindIdx p '/' := rfindIdx_ge p '/'
    have hdi : 0 ≤ rfindIdx p '.' := by omega
    constructor
    · show (p.drop (rfindIdx p '.').toNat).head? = some '.'
      rw [List.head?_eq_getElem?, List.getElem?_drop, Nat.add_zero]
      exact rfindIdx_getElem p '.' hdi
    · intro ch hch hcheq
      subst hcheq
      show False
      rw [show (p.drop (rfindIdx p '.').toNat).tail
          = p.drop ((rfindIdx p '.').toNat + 1) from List.tail_drop p _] at hch
      obtain ⟨j, hj⟩ := List.mem_iff_getElem?.mp hch
      rw [List.getElem?_drop] at hj
      have := rfindIdx_le p '.' ((rfindIdx p '.').toNat + 1 + j) hj
      push_cast at this
      omega
  next =>
    left
    rfl

theorem ext_not_svg_suffix (p : List Char) (h : (splitext p).2 ≠ svgChars) :
    svgChars.isSuffixOf (splitext p).2 = false := by
  cases hsuf : svgChars.isSuffixOf (splitext p).2
  · rfl
  · exfalso
    have hs : svgChars <:+ (splitext p).2 := List.isSuffixOf_iff_suffix.mp hsuf
    obtain ⟨pre, hpre⟩ := hs
    rcases splitext_snd_cases p with hnil | ⟨hhead, htail⟩
    · rw [hnil] at hpre
      have := congrArg List.length hpre
      simp [svgChars] at this
    · cases pre with
      | nil =>
        rw [List.nil_append] at hpre
        exact h hpre.symm
      | cons c rest =>
        have hdot : '.' ∈ (splitext p).2.tail := by
          rw [← hpre, List.cons_append, List.tail_cons]
          simp [svgChars]
        exact htail '.' hdot rfl

/-- The geometry emitted by `draw_svg`: output file name, mask dimensions
(for the background rectangle) and one `(x, y, radius)` triple per circle. -/
structure SvgDoc where
  name : List Char
  width : ℕ
  height : ℕ
  shapes : List (ℤ × ℤ × ℤ)

/-- Embeds `CircleCloud.draw_svg` (lines 195-214): correct the output name
to end in `".svg"` when its extension does not (lines 199-203), then emit
a background rectangle sized to the mask and one SVG circle per collection
entry at the stored integer geometry `(c.x, c.y, c.radius)`.  The function
is total: the drawing is always produced, never refused. -/
def draw_svg (circles : List Circle) (w h : ℕ) (outfn : List Char) : SvgDoc :=
  let fe := splitext outfn
  let outfn2 := if svgChars.isSuffixOf fe.2 then outfn else fe.1 ++ svgChars
  { name := outfn2
    width := w
    height := h
    shapes := circles.map (fun c => (c.x, c.y, c.radius)) }

theorem pyInt_eq_floor (q : ℚ) (h : 0 ≤ q) : pyInt q = ⌊q⌋ := by
  rw [pyInt, Rat.floor_def]
  exact Int.tdiv_eq_ediv (Rat.num_nonneg.mpr h) (Int.natCast_nonneg q.den)

theorem listMin_eq_none (l : List ℚ) : listMin l = none ↔ l = [] := by
  cases l with
  | nil => simp [listMin]
  | cons a t =>
    simp only [listMin]
    cases listMin t <;> simp

theorem listMin_spec (l : List ℚ) (mn : ℚ) (h : listMin l = some mn) :
    mn ∈ l ∧ ∀ x ∈ l, mn ≤ x := by
  induction l generalizing mn with
  | nil => simp [listMin] at h
  | cons a t ih =>
    simp only [listMin] at h
    cases ht : listMin t with
    | none =>
      rw [ht] at h
      injection h with h
      subst h
      have hnil : t = [] := (listMin_eq_none t).mp ht
      subst hnil
      simp
    | some v =>
      rw [ht] at h
      injection h with h
      subst h
      obtain ⟨hv1, hv2⟩ := ih v ht
      constructor
      · rcases le_total a v with hc | hc
        · rw [min_eq_left hc]; exact List.mem_cons_self a t
        · rw [min_eq_right hc]; exact List.mem_cons_of_mem a hv1
      · intro x hx
        rcases List.mem_cons.mp hx with rfl | hx'
        · exact min_le_left _ _
        · exact le_trans (min_le_right a v) (hv2 x hx')

theorem list_sum_map_div (l : List ℚ) (s : ℚ) :
    (l.map (fun q => q / s)).sum = l.sum / s := by
  induction l with
  | nil => simp
  | cons a t ih => simp [ih, add_div]

theorem linspace_length (a b : ℚ) (m : ℕ) : (linspace a b m).length = m := by
  rw [linspace]
  split
  next h => simp [h]
  next =>
    split
    next h => simp [h]
    next => rw [List.length_map, List.length_range]

theorem weightsRaw_length (r_min r_max : ℚ) (m : ℕ) :
    (weightsRaw r_min r_max m).length = m := by
  rw [weightsRaw, List.length_map, linspace_length]

/-- The shifted weights form a valid probability distribution: each is
positive (in fact the shift puts every raw weight at least at 5) and the
normalized list sums to 1. -/
theorem probsNorm_spec (r_min r_max : ℚ) (m : ℕ) (hm : m ≠ 0) :
    ∃ ps, probsNorm r_min r_max m = some ps ∧ ps.length = m ∧
      ps.sum = 1 ∧ ∀ q ∈ ps, 0 < q := by
  have hne : weightsRaw r_min r_max m ≠ [] := by
    intro h0
    have hl := weightsRaw_length r_min r_max m
    rw [h0] at hl
    exact hm hl.symm
  obtain ⟨mn, hmn⟩ : ∃ mn, listMin (weightsRaw r_min r_max m) = some mn := by
    cases hl : listMin (weightsRaw r_min r_max m) with
    | none => exact absurd ((listMin_eq_none _).mp hl) hne
    | some v => exact ⟨v, rfl⟩
  have hp5 : ∀ q ∈ (weightsRaw r_min r_max m).map (fun q => q + |mn| + 5), 5 ≤ q := by
    intro q hq
    obtain ⟨x, hx, rfl⟩ := List.mem_map.mp hq
    have hmnle : mn ≤ x := (listMin_spec _ mn hmn).2 x hx
    have habs : -|mn| ≤ mn := neg_abs_le mn
    linarith
  have hpne : (weightsRaw r_min r_max m).map (fun q => q + |mn| + 5) ≠ [] := by
    intro h0
    have hlen := congrArg List.length h0
    rw [List.length_map, weightsRaw_length] at hlen
    exact hm (by simpa using hlen)
  have hsum : 0 < ((weightsRaw r_min r_max m).map (fun q => q + |mn| + 5)).sum :=
    List.sum_pos _ (fun x hx => lt_of_lt_of_le (by norm_num) (hp5 x hx)) hpne
  have hps : probsNorm r_min r_max m =
      some (((weightsRaw r_min r_max m).map (fun q => q + |mn| + 5)).map
        (fun q => q / ((weightsRaw r_min r_max m).map (fun q => q + |mn| + 5)).sum)) := by
    simp only [probsNorm, hmn]
  refine ⟨_, hps, ?_, ?_, ?_⟩
  · rw [List.length_map, List.length_map, weightsRaw_length]
  · rw [list_sum_map_div, div_self (ne_of_gt hsum)]
  · intro q hq
    obtain ⟨x, hx, rfl⟩ := List.mem_map.mp hq
    exact div_pos (lt_of_lt_of_le (by norm_num) (hp5 x hx)) hsum

theorem nradii_eq_floor (r_min r_max : ℚ) (h : r_min ≤ r_max) :
    nradii r_min r_max = ⌊(r_max - r_min) * 10⌋ := by
  rw [nradii, qMul_eq, qSub_eq]
  exact pyInt_eq_floor _ (mul_nonneg (by linarith) (by norm_num))

theorem rpool_sorted (r_min r_max : ℚ) (draws : ℕ → ℚ) :
    (rpool r_min r_max draws).Sorted (· ≤ ·) :=
  List.sorted_insertionSort _ _

theorem rpool_perm (r_min r_max : ℚ) (draws : ℕ → ℚ) :
    (rpool r_min r_max draws).Perm
      ((List.range (nradii r_min r_max).toNat).map draws) :=
  List.perm_insertionSort _ _

theorem rpool_length (r_min r_max : ℚ) (draws : ℕ → ℚ) :
    (rpool r_min r_max draws).length = (nradii r_min r_max).toNat := by
  rw [rpool, List.length_insertionSort, List.length_map, List.length_range]

/-- Constant gray image used by the concrete test runs. -/
def gray7 : ℕ → ℕ → ℕ := fun _ _ => 200

/-- A 7×1 all-white mask obtained through the construction pipeline. -/
def mask7 : Mask := binarize gray7 7 1 128 false

/-- Run configuration placing two radius-1 circles at pool indices 0 and 5. -/
def env7 : Env :=
  { n := 2, max_attempts := 100, maskupdate := false, offset := 0,
    radii := [1, 1], picks := fun t => if t = 0 then 0 else 5 }

def circA : Circle := mkCircle (0, 0) 1 0

def circB : Circle := mkCircle (5, 0) 1 0

/-- A 2×2 fully forbidden mask (zero allowed pixels). -/
def maskNone : Mask := { width := 2, height := 2, pix := fun _ _ => false }

/-- Run configuration requesting one circle. -/
def envOne : Env :=
  { n := 1, max_attempts := 100, maskupdate := false, offset := 0,
    radii := [1], picks := fun _ => 0 }

/-- A 2×2 mask whose only allowed pixel is the corner `(0, 0)`: a radius-1
circle there never fits. -/
def maskCorner : Mask :=
  { width := 2, height := 2, pix := fun x y => decide (x = 0) && decide (y = 0) }

/-- Run configuration with `max_attempts = 0`. -/
def envZeroAttempts : Env :=
  { n := 1, max_attempts := 0, maskupdate := false, offset := 0,
    radii := [1], picks := fun _ => 0 }

/-- Run configuration with the single sampled radius `5.9`. -/
def envBig : Env :=
  { n := 1, max_attempts := 100, maskupdate := false, offset := 0,
    radii := [mkRat 59 10], picks := fun _ => 0 }

def circBig : Circle := mkCircle (0, 0) (mkRat 59 10) 0

/-- Modelled from the claim's words (C5): a pool of `nradii` candidate
radii uniformly spaced in `[r_min, r_max]` — for comparison against the
pool the code actually builds. -/
def specUniformPool (r_min r_max : ℚ) : List ℚ :=
  linspace r_min r_max (nradii r_min r_max).toNat

/-- The file name `"circles.png"`. -/
def circlesPng : List Char := ['c', 'i', 'r', 'c', 'l', 'e', 's', '.', 'p', 'n', 'g']

/-- C1: in every completed run, any two distinct accepted circles are at
Euclidean center distance at least the sum of their radii plus the offset
of the later-placed of the two: no two circles in the collection overlap. -/
theorem claim_no_overlap (env : Env) (m : Mask) (cs : List Circle) (m' : Mask)
    (cf t' : ℕ) (hrun : place_circles env m = some (.ok cs m' cf t'))
    (i j : ℕ) (hij : i < j) (hj : j < cs.length) :
    ((cs.get ⟨i, lt_trans hij hj⟩).radius : ℝ) + ((cs.get ⟨j, hj⟩).radius : ℝ) +
      ((cs.get ⟨j, hj⟩).offset : ℝ) ≤
      Real.sqrt ((((cs.get ⟨j, hj⟩).x - (cs.get ⟨i, lt_trans hij hj⟩).x) ^ 2 +
        ((cs.get ⟨j, hj⟩).y - (cs.get ⟨i, lt_trans hij hj⟩).y) ^ 2 : ℤ) : ℝ) := by
  have hrun' : placeLoopF env (env.n * (env.max_attempts + 2) + env.max_attempts + 2)
      m [] 0 0 0 = some (.ok cs m' cf t') := hrun
  have hinv := placeLoop_invariant env _ m [] 0 0 0 cs m' cf t' hrun'
    (fun cc hcc => absurd hcc (List.not_mem_nil cc)) List.Pairwise.nil
  have hp := List.pairwise_iff_get.mp hinv.2.2 ⟨i, lt_trans hij hj⟩ ⟨j, hj⟩ hij
  simp only [Circle.overlaps_other] at hp
  have hle := sqrtLtQ_false _ _ hp
  rw [qAdd_eq] at hle
  refine le_trans (le_of_eq ?_) hle
  push_cast
  ring

/-- Witness for C1: the concrete two-circle run on the 7×1 mask, with
centers at distance 5 and radius sum 2. -/
theorem claim_no_overlap_witness :
    place_circles env7 mask7 = some (.ok [circA, circB] mask7 2 2) ∧
    ((circA.radius : ℝ) + (circB.radius : ℝ) + (circB.offset : ℝ) ≤
      Real.sqrt ((((circB.x - circA.x) ^ 2 + (circB.y - circA.y) ^ 2 : ℤ)) : ℝ)) :=
  ⟨rfl, by
    have h := claim_no_overlap env7 mask7 [circA, circB] mask7 2 2 rfl 0 1
      (by omega) (by decide)
    exact h⟩

/-- C2: every accepted circle of a completed run lies entirely inside the
original mask as computed at construction (binarization with the
library-selected threshold, optional inversion), whatever the mask-update
toggle did during placement. -/
theorem claim_inside_original_mask (gray : ℕ → ℕ → ℕ) (w h thr : ℕ)
    (invert : Bool) (env : Env) (cs : List Circle) (m' : Mask) (cf t' : ℕ)
    (hrun : place_circles env (binarize gray w h thr invert) =
      some (.ok cs m' cf t')) :
    ∀ cc ∈ cs, cc.is_inside_mask (binarize gray w h thr invert) = true := by
  have hrun' : placeLoopF env (env.n * (env.max_attempts + 2) + env.max_attempts + 2)
      (binarize gray w h thr invert) [] 0 0 0 = some (.ok cs m' cf t') := hrun
  have hinv := placeLoop_invariant env _ _ [] 0 0 0 cs m' cf t' hrun'
    (fun cc hcc => absurd hcc (List.not_mem_nil cc)) List.Pairwise.nil
  exact hinv.2.1

/-- Witness for C2: both circles of the concrete run lie inside the
constructed mask. -/
theorem claim_inside_original_mask_witness :
    place_circles env7 mask7 = some (.ok [circA, circB] mask7 2 2) ∧
    circA.is_inside_mask mask7 = true :=
  ⟨rfl,
    claim_inside_original_mask gray7 7 1 128 false env7 [circA, circB] mask7 2 2 rfl
      circA (List.mem_cons_self circA [circB])⟩

/-- C3 counterexample: with `n = 1` and `max_attempts = 0` on a mask whose
single allowed pixel cannot contain a radius-1 circle, the run makes one
candidate attempt — more than the claimed bound `n * max_attempts = 0`
(the loop gives up only when the counter *exceeds* `max_attempts`). -/
theorem claim_attempts_bound_counterexample :
    place_circles envZeroAttempts maskCorner = some (.ok [] maskCorner 1 1) ∧
    envZeroAttempts.n * envZeroAttempts.max_attempts <
      attemptsOf (PlaceResult.ok [] maskCorner 1 1) :=
  ⟨rfl, by decide⟩

/-- C3 (amended): the placement loop always terminates; when the
allowed-coordinate pool is nonempty it completes all `n` radius slots
(each accepted or abandoned) and the total number of candidate placement
attempts is at most `n * (max_attempts + 1)`. -/
theorem claim_placement_terminates (env : Env) (m : Mask)
    (hne : maskcoords m ≠ []) :
    ∃ cs m' t', place_circles env m = some (.ok cs m' env.n t') ∧
      t' ≤ env.n * (env.max_attempts + 1) := by
  have htot := placeLoop_total env
    (env.n * (env.max_attempts + 2) + env.max_attempts + 2) m [] 0 0 0 (by
      rw [Nat.sub_zero]
      omega)
  obtain ⟨res, hres⟩ := Option.isSome_iff_exists.mp htot
  cases res with
  | err te => exact absurd hres (placeLoop_no_err env _ m [] 0 0 0 te hne)
  | ok cs m' cf t' =>
    have hcf := placeLoop_cdone env _ m [] 0 0 0 cs m' cf t' (Nat.zero_le _) hres
    subst hcf
    have hatt := placeLoop_attempts env _ m [] 0 0 0 _ hres (by omega)
    refine ⟨cs, m', t', hres, ?_⟩
    by_cases hn : 0 < env.n
    · have h1 := hatt.1 hn
      simp only [attemptsOf] at h1
      rw [Nat.sub_zero] at h1
      omega
    · have h2 := hatt.2 (by omega)
      simp only [attemptsOf] at h2
      omega

/-- Witness for the amended C3: the concrete two-circle run completes both
slots in 2 attempts, within the bound `2 * 101`. -/
theorem claim_placement_terminates_witness :
    maskcoords mask7 ≠ [] ∧
    ∃ cs m' t', place_circles env7 mask7 = some (.ok cs m' env7.n t') ∧
      t' ≤ env7.n * (env7.max_attempts + 1) :=
  ⟨by decide, claim_placement_terminates env7 mask7 (by decide)⟩

/-- C4 counterexample: on a fully forbidden mask with `n = 1`, the run
does not complete without exception — it aborts with the empty-range
error (modelling the `ValueError` raised by `random.randrange(0, 0)`). -/
theorem claim_empty_mask_counterexample :
    place_circles envOne maskNone = some (.err 0) := rfl

/-- C4 (amended): on a mask with zero allowed pixels and `n ≥ 1`, the run
accepts no circle and aborts on its first coordinate pick with the
empty-range `ValueError` from `random.randrange` (zero candidates were
constructed). -/
theorem claim_empty_mask_raises (env : Env) (m : Mask)
    (hzero : maskcoords m = []) (hn : 0 < env.n) :
    place_circles env m = some (.err 0) := by
  simp only [place_circles]
  obtain ⟨k, hk⟩ : ∃ k, env.n * (env.max_attempts + 2) + env.max_attempts + 2 = k + 1 :=
    ⟨env.n * (env.max_attempts + 2) + env.max_attempts + 1, by omega⟩
  rw [hk]
  simp only [placeLoopF]
  rw [if_pos hn, if_neg (by omega : ¬env.max_attempts < 0)]
  have hstep : stepMask env m [] 0 0 = m := by
    rw [stepMask, if_neg]
    rintro ⟨-, -, h0, -⟩
    exact absurd h0 (lt_irrefl 0)
  rw [hstep, hzero]
  simp

/-- Witness for the amended C4: the concrete fully forbidden 2×2 mask. -/
theorem claim_empty_mask_raises_witness :
    (maskcoords maskNone = [] ∧ 0 < envOne.n) ∧
    place_circles envOne maskNone = some (.err 0) :=
  ⟨⟨by decide, by decide⟩,
    claim_empty_mask_raises envOne maskNone (by decide) (by decide)⟩

/-- C5 counterexample: with `r_min = 0`, `r_max = 1` and all ten
`random.uniform` draws equal to `1/2`, the pool the code builds is ten
copies of `1/2` — not the uniformly spaced pool described by the claim
(whose second element is `1/9`). -/
theorem claim_uniform_pool_counterexample :
    rpool 0 1 (fun _ => mkRat 1 2) = List.replicate 10 (mkRat 1 2) ∧
    rpool 0 1 (fun _ => mkRat 1 2) ≠ specUniformPool 0 1 := by
  refine ⟨by decide, ?_⟩
  intro heq
  have hL : (rpool 0 1 (fun _ => mkRat 1 2)).getD 1 0 = mkRat 1 2 := by decide
  have hR : (specUniformPool 0 1).getD 1 0 = 1 / 9 := by
    have hn : (nradii 0 1).toNat = 10 := by decide
    rw [specUniformPool, hn, linspace]
    norm_num
  rw [heq] at hL
  rw [hL] at hR
  rw [Rat.mkRat_eq_div] at hR
  norm_num at hR

/-- C5 (amended): for every `r_min ≤ r_max` the sampler builds a pool of
exactly `⌊(r_max - r_min) * 10⌋` radii — the `random.uniform` draws
sorted ascending, not an evenly spaced grid.  When that count is zero
(gap below `0.1`), the pool is empty and the sampler raises (`min()` of
the empty weight sequence) before producing any radius.  Otherwise it
normalizes the shifted linear weights over the evenly spaced grid of
matching length into a genuine probability distribution (positive,
summing to 1), draws `n` samples with replacement from the pool, and
returns them sorted in descending order. -/
theorem claim_radius_sampler (r_min r_max : ℚ) (n : ℕ) (draws : ℕ → ℚ)
    (cpicks : ℕ → ℕ) (hr : r_min ≤ r_max) :
    nradii r_min r_max = ⌊(r_max - r_min) * 10⌋ ∧
    (rpool r_min r_max draws).length = (nradii r_min r_max).toNat ∧
    (rpool r_min r_max draws).Sorted (· ≤ ·) ∧
    (rpool r_min r_max draws).Perm
      ((List.range (nradii r_min r_max).toNat).map draws) ∧
    (((nradii r_min r_max).toNat = 0 ∧
        rpool r_min r_max draws = [] ∧
        sampleRadii r_min r_max n draws cpicks = .error ()) ∨
      ((nradii r_min r_max).toNat ≠ 0 ∧
        (∃ ps, probsNorm r_min r_max (rpool r_min r_max draws).length = some ps ∧
          ps.length = (rpool r_min r_max draws).length ∧ ps.sum = 1 ∧
          ∀ q ∈ ps, 0 < q) ∧
        (∃ rs, sampleRadii r_min r_max n draws cpicks = .ok rs ∧ rs.length = n ∧
          (∀ r ∈ rs, r ∈ rpool r_min r_max draws) ∧ rs.Sorted (· ≥ ·)))) := by
  have hlen := rpool_length r_min r_max draws
  refine ⟨nradii_eq_floor r_min r_max hr, hlen, rpool_sorted r_min r_max draws,
    rpool_perm r_min r_max draws, ?_⟩
  by_cases hpool : (nradii r_min r_max).toNat = 0
  · left
    have hnil : rpool r_min r_max draws = [] := by
      rw [rpool, hpool]
      rfl
    refine ⟨hpool, hnil, ?_⟩
    have hnone : probsNorm r_min r_max (rpool r_min r_max draws).length = none := by
      rw [hnil]
      simp [probsNorm, weightsRaw, linspace, listMin]
    simp only [sampleRadii, hnone]
  · right
    refine ⟨hpool, ?_, ?_⟩
    · rw [hlen]
      exact probsNorm_spec r_min r_max _ hpool
    · obtain ⟨ps, hps, -, -, -⟩ := probsNorm_spec r_min r_max
        (rpool r_min r_max draws).length (by rw [hlen]; exact hpool)
      have hsr : sampleRadii r_min r_max n draws cpicks =
          .ok ((List.insertionSort (· ≤ ·) ((List.range n).map
            (fun t => (rpool r_min r_max draws).getD
              (cpicks t % (rpool r_min r_max draws).length) 0))).reverse) := by
        simp only [sampleRadii, hps]
      refine ⟨_, hsr, ?_, ?_, ?_⟩
      · rw [List.length_reverse, List.length_insertionSort, List.length_map,
          List.length_range]
      · intro r hr2
        rw [List.mem_reverse] at hr2
        obtain ⟨t, ht, rfl⟩ := List.mem_map.mp ((List.perm_insertionSort _ _).subset hr2)
        have hlt : cpicks t % (rpool r_min r_max draws).length <
            (rpool r_min r_max draws).length :=
          Nat.mod_lt _ (by rw [hlen]; omega)
        rw [List.getD_eq_getElem?_getD, List.getElem?_eq_getElem hlt]
        exact List.getElem_mem hlt
      · exact List.pairwise_reverse.mpr (List.sorted_insertionSort (· ≤ ·) _)

/-- Witness for the amended C5: with `r_min = 0`, `r_max = 1`, constant
draws `1/2` and two samples, the nonempty-pool branch applies; with
`r_min = 2`, `r_max = 2.05` (gap below `0.1`) the pool is empty and the
sampler raises. -/
theorem claim_radius_sampler_witness :
    ((0 : ℚ) ≤ 1 ∧ (2 : ℚ) ≤ mkRat 41 20) ∧
    (∃ rs, sampleRadii 0 1 2 (fun _ => mkRat 1 2) (fun _ => 0) = .ok rs ∧
      rs.length = 2 ∧ (∀ r ∈ rs, r ∈ rpool 0 1 (fun _ => mkRat 1 2)) ∧
      rs.Sorted (· ≥ ·)) ∧
    sampleRadii 2 (mkRat 41 20) 3 (fun _ => 2) (fun _ => 0) = .error () :=
  ⟨⟨by norm_num, by decide⟩,
    ((claim_radius_sampler 0 1 2 (fun _ => mkRat 1 2) (fun _ => 0)
        (by norm_num)).2.2.2.2.resolve_left
      (fun hcon => absurd hcon.1 (by decide))).2.2,
    ((claim_radius_sampler 2 (mkRat 41 20) 3 (fun _ => 2) (fun _ => 0)
        (by decide)).2.2.2.2.resolve_right
      (fun hcon => absurd (by decide : (nradii 2 (mkRat 41 20)).toNat = 0)
        hcon.1)).2.2⟩

/-- C6 counterexample: with `r_min = r_max = 5` the pool is empty — not a
valid single-value pool — and the sampler raises (`min()` of an empty
sequence) instead of producing radii. -/
theorem claim_degenerate_pool_counterexample :
    rpool 5 5 (fun _ => 5) = [] ∧
    sampleRadii 5 5 3 (fun _ => 5) (fun _ => 0) = .error () :=
  ⟨rfl, rfl⟩

/-- C6 (amended): whenever `r_min = r_max`, `nradii` is `0`, the radius
pool is empty, and the sampler aborts with the empty-sequence error
before any radius is produced, so placement never proceeds. -/
theorem claim_equal_radii_error (r : ℚ) (n : ℕ) (draws : ℕ → ℚ)
    (cpicks : ℕ → ℕ) :
    nradii r r = 0 ∧ rpool r r draws = [] ∧
    sampleRadii r r n draws cpicks = .error () := by
  have h0 : nradii r r = 0 := by
    rw [nradii, qSub_eq, qMul_eq, sub_self, zero_mul]
    decide
  have hpool : rpool r r draws = [] := by
    rw [rpool, h0]
    rfl
  refine ⟨h0, hpool, ?_⟩
  have hnone : probsNorm r r (rpool r r draws).length = none := by
    rw [hpool]
    simp [probsNorm, weightsRaw, linspace, listMin]
  simp only [sampleRadii, hnone]

/-- C7: the overlap test returns true iff the Euclidean center distance is
strictly below `radius A + radius B + offset A`, where `A` is the
candidate; the already-placed circle's own offset is ignored. -/
theorem claim_overlap_test (A B : Circle) :
    (A.overlaps_other B = true ↔
      Real.sqrt (((A.x - B.x) ^ 2 + (A.y - B.y) ^ 2 : ℤ) : ℝ) <
        (A.radius : ℝ) + (B.radius : ℝ) + (A.offset : ℝ)) ∧
    (∀ o : ℚ, A.overlaps_other { B with offset := o } = A.overlaps_other B) := by
  constructor
  · have hq : ((qAdd (((B.radius + A.radius : ℤ) : ℚ)) A.offset : ℚ) : ℝ) =
        (A.radius : ℝ) + (B.radius : ℝ) + (A.offset : ℝ) := by
      rw [qAdd_eq]
      push_cast
      ring
    rw [Circle.overlaps_other, sqrtLtQ_iff, hq]
  · intro o
    rfl

/-- C8: under the run invariant (every placed circle lies inside the
mask), the mask-update pass is the identity on the mask: the re-derived
coordinate pool equals — in particular is a subset of — the previous
pool, and the containment verdict of any candidate circle is unchanged,
so it never changes which circles are accepted. -/
theorem claim_mask_update (m : Mask) (cs : List Circle)
    (hin : ∀ c ∈ cs, c.is_inside_mask m = true) :
    update_mask_coordinates m cs = m ∧
    (∀ p ∈ maskcoords (update_mask_coordinates m cs), p ∈ maskcoords m) ∧
    (∀ cand : Circle, cand.is_inside_mask (update_mask_coordinates m cs) =
      cand.is_inside_mask m) := by
  have h := update_mask_noop m cs hin
  exact ⟨h, fun p hp => by rw [h] at hp; exact hp, fun cand => by rw [h]⟩

/-- Witness for C8: burning the radius-1 circle at the origin into the
7×1 mask leaves the mask unchanged. -/
theorem claim_mask_update_witness :
    (∀ c ∈ [circA], Circle.is_inside_mask c mask7 = true) ∧
    update_mask_coordinates mask7 [circA] = mask7 :=
  ⟨by decide, (claim_mask_update mask7 [circA] (by decide)).1⟩

/-- C9: when the requested output name's extension is not `".svg"`,
`draw_svg` corrects the name to the root followed by `".svg"` (so the
final name ends in `".svg"`), and still produces the drawing — one shape
per circle at the stored geometry — rather than failing. -/
theorem claim_svg_name (circles : List Circle) (w h : ℕ) (outfn : List Char)
    (hext : (splitext outfn).2 ≠ svgChars) :
    (draw_svg circles w h outfn).name = (splitext outfn).1 ++ svgChars ∧
    svgChars.isSuffixOf (draw_svg circles w h outfn).name = true ∧
    (draw_svg circles w h outfn).shapes =
      circles.map (fun c => (c.x, c.y, c.radius)) := by
  have hfalse := ext_not_svg_suffix outfn hext
  have hname : (draw_svg circles w h outfn).name = (splitext outfn).1 ++ svgChars := by
    simp only [draw_svg, hfalse]
    simp
  refine ⟨hname, ?_, rfl⟩
  rw [hname]
  exact List.isSuffixOf_iff_suffix.mpr ⟨(splitext outfn).1, rfl⟩

/-- Witness for C9: the request `"circles.png"` is corrected to
`"circles.svg"`. -/
theorem claim_svg_name_witness :
    (splitext circlesPng).2 ≠ svgChars ∧
    (draw_svg [] 7 1 circlesPng).name = (splitext circlesPng).1 ++ svgChars :=
  ⟨by decide, (claim_svg_name [] 7 1 circlesPng (by decide)).1⟩

/-- C10: every accepted circle's stored geometry is integer-valued via the
constructor's `int()` truncation: its radius is `pyInt` of the sampled
rational radius of some slot, `draw_svg` emits exactly the stored integer
triples, and e.g. the sampled radius `5.9` is truncated to `5`. -/
theorem claim_integer_truncation (env : Env) (m : Mask) (cs : List Circle)
    (m' : Mask) (cf t' : ℕ)
    (hrun : place_circles env m = some (.ok cs m' cf t'))
    (w h : ℕ) (outfn : List Char) :
    (∀ cc ∈ cs, ∃ i, i < env.n ∧ cc.radius = pyInt (env.radii.getD i 0)) ∧
    (draw_svg cs w h outfn).shapes = cs.map (fun c => (c.x, c.y, c.radius)) ∧
    pyInt (mkRat 59 10) = 5 := by
  have hrun' : placeLoopF env (env.n * (env.max_attempts + 2) + env.max_attempts + 2)
      m [] 0 0 0 = some (.ok cs m' cf t') := hrun
  refine ⟨?_, rfl, by decide⟩
  intro cc hcc
  rcases placeLoop_radii env _ m [] 0 0 0 cs m' cf t' hrun' cc hcc with hmem | hex
  · exact absurd hmem (List.not_mem_nil cc)
  · exact hex

/-- Witness for C10: a run whose only sampled radius is `5.9` stores and
emits the truncated radius `5`. -/
theorem claim_integer_truncation_witness :
    place_circles envBig mask7 = some (.ok [circBig] mask7 1 1) ∧
    (∃ i, i < envBig.n ∧ circBig.radius = pyInt (envBig.radii.getD i 0)) ∧
    circBig.radius = 5 :=
  ⟨rfl,
    (claim_integer_truncation envBig mask7 [circBig] mask7 1 1 rfl 7 1 []).1
      circBig (List.mem_singleton_self circBig),
    rfl⟩

end PackCircles
